import Mathlib

/-!
Verification of the mercator interactive scoped-command shell
(repository eliquious/mercator).

The development shallowly embeds the core of the shell:

* the `Environment` scope stack (`Push`, `Pop`, `CurrentScope`, `Len`,
  `NewEnvironment`) from the `package main` snapshot of `binance.go`;
* the executor `ExecutorFunc`, including the tokenizer it calls
  (`shellquote.Split` from github.com/kballard/go-shellquote, an external
  collaborator, modelled as a character state machine `splitGo` that follows
  that library's algorithm exactly);
* the recursive completion walker `getSuggestions` over the cobra command
  tree, modelled by the inductive `Cmd` (name, short description, flags,
  valid args, children — exactly the fields `getSuggestions` reads);
* the binance scope constructors and the `use binance` command body, whose
  error gating is modelled with the upstream exchange-info call abstracted
  as an `Except` parameter (it is a blocking network call);
* the `padLeft`/`padRight` helpers, modelled over byte lists with an
  explicit fuel argument so that the (possible) non-termination of the Go
  `for {}` loop becomes `none` for every fuel value.

Command run bodies (cobra's `Execute` after `SetArgs`) wrap network calls
and terminal rendering; they are abstracted as an opaque-to-the-shell
function `ScopeV.run : List String → CmdResult` stored in each scope, which
is exactly the interface `ExecutorFunc` consumes.
-/

deriving instance DecidableEq for Except

namespace Mercator

/-! ### Tokenizer: github.com/kballard/go-shellquote `Split` -/

/-- Errors returned by `shellquote.Split` (names follow the Go library). -/
inductive SplitError where
  | unterminatedSingle
  | unterminatedDouble
  | unterminatedEscape
deriving DecidableEq, Repr

/-- The `err.Error()` strings of the three shellquote errors, as printed by
`ExecutorFunc` via `color.Warn.Println(err.Error())`. -/
def SplitError.message : SplitError → String
  | .unterminatedSingle => "Unterminated single-quoted string"
  | .unterminatedDouble => "Unterminated double-quoted string"
  | .unterminatedEscape => "Unterminated backslash-escape"

/-- Go `splitChars = " \n\t"` (space, newline, tab). -/
def splitChars : List Char := [Char.ofNat 32, Char.ofNat 10, Char.ofNat 9]

/-- Go `singleChar = '\''`. -/
def singleChar : Char := Char.ofNat 39

/-- Go `doubleChar = '"'`. -/
def doubleChar : Char := Char.ofNat 34

/-- Go `escapeChar = '\\'`. -/
def escapeChar : Char := Char.ofNat 92

/-- Go `doubleEscapeChars = "$`+"`"+`\"\n\\"`: dollar, backquote, double
quote, newline, backslash. -/
def doubleEscapeChars : List Char :=
  [Char.ofNat 36, Char.ofNat 96, Char.ofNat 34, Char.ofNat 10, Char.ofNat 92]

/-- Control state of the `Split` algorithm.  `skip` is the top-level loop
between words, `skipEsc` the top-level lookahead after a backslash, `raw`,
`single` and `double` are the labelled sections of `splitWord`, and
`rawEsc`/`doubleEsc` are the one-character lookaheads after a backslash in
the corresponding section. -/
inductive SplitMode where
  | skip | skipEsc | raw | rawEsc | single | double | doubleEsc
deriving DecidableEq, Repr

/-- One-character-per-step compilation of `shellquote.Split`.  `word` is the
`buf` of the current word, `words` the words produced so far.  Every branch
mirrors one transition of the Go code:

* `skip`: skip split characters; a backslash looks ahead for an escaped
  newline (elided); anything else starts a word;
* `raw`: a split character ends the word; quotes and backslash switch
  section; other characters are copied;
* `rawEsc`: an escaped newline is elided from the output, any other escaped
  character is copied verbatim; at end of input `UnterminatedEscapeError`;
* `single`: copy until the closing single quote, else
  `UnterminatedSingleQuoteError`;
* `double`: copy until the closing double quote; backslash escapes only the
  characters of `doubleEscapeChars` (an escaped newline is elided), any
  other backslash pair is copied verbatim; at end of input
  `UnterminatedDoubleQuoteError`. -/
def splitGo : SplitMode → List Char → List String → List Char → Except SplitError (List String)
  | .skip, _, words, [] => .ok words
  | .skip, _, words, c :: rest =>
    if c ∈ splitChars then splitGo .skip [] words rest
    else if c = escapeChar then splitGo .skipEsc [] words rest
    else if c = singleChar then splitGo .single [] words rest
    else if c = doubleChar then splitGo .double [] words rest
    else splitGo .raw [c] words rest
  | .skipEsc, _, _, [] => .error .unterminatedEscape
  | .skipEsc, _, words, c :: rest =>
    if c = Char.ofNat 10 then splitGo .skip [] words rest
    else splitGo .raw [c] words rest
  | .raw, word, words, [] => .ok (words ++ [String.mk word])
  | .raw, word, words, c :: rest =>
    if c ∈ splitChars then splitGo .skip [] (words ++ [String.mk word]) rest
    else if c = escapeChar then splitGo .rawEsc word words rest
    else if c = singleChar then splitGo .single word words rest
    else if c = doubleChar then splitGo .double word words rest
    else splitGo .raw (word ++ [c]) words rest
  | .rawEsc, _, _, [] => .error .unterminatedEscape
  | .rawEsc, word, words, c :: rest =>
    if c = Char.ofNat 10 then splitGo .raw word words rest
    else splitGo .raw (word ++ [c]) words rest
  | .single, _, _, [] => .error .unterminatedSingle
  | .single, word, words, c :: rest =>
    if c = singleChar then splitGo .raw word words rest
    else splitGo .single (word ++ [c]) words rest
  | .double, _, _, [] => .error .unterminatedDouble
  | .double, word, words, c :: rest =>
    if c = doubleChar then splitGo .raw word words rest
    else if c = escapeChar then splitGo .doubleEsc word words rest
    else splitGo .double (word ++ [c]) words rest
  | .doubleEsc, _, _, [] => .error .unterminatedDouble
  | .doubleEsc, word, words, c :: rest =>
    if c ∈ doubleEscapeChars then
      if c = Char.ofNat 10 then splitGo .double word words rest
      else splitGo .double (word ++ [c]) words rest
    else splitGo .double (word ++ [escapeChar, c]) words rest

/-- `shellquote.Split`: split an input line into shell-style tokens. -/
def shellquoteSplit (input : String) : Except SplitError (List String) :=
  splitGo .skip [] [] input.data

/-! ### Command tree (the fields of `cobra.Command` the shell reads) -/

/-- One declared flag of a command (`pflag.Flag`): its name and usage
string, the two fields the completion walker reads. -/
structure GoFlag where
  name : String
  usage : String
deriving DecidableEq, Repr

/-- A command node: `Use` (the name matched against input), `Short`
description, declared flags, `ValidArgs`, and child commands — exactly the
fields read by `getSuggestions` (`cmd.Use`, `cmd.Short`, `cmd.Flags()`,
`cmd.ValidArgs`, `cmd.Commands()`).  Flags appear in the order
`Flags().VisitAll` yields them. -/
inductive Cmd where
  | mk (use short : String) (flags : List GoFlag) (validArgs : List String)
      (commands : List Cmd)

/-- The `Use` field of a command. -/
def Cmd.use : Cmd → String
  | .mk u _ _ _ _ => u

/-- The `Short` field of a command. -/
def Cmd.short : Cmd → String
  | .mk _ s _ _ _ => s

/-- The declared flags of a command. -/
def Cmd.flags : Cmd → List GoFlag
  | .mk _ _ f _ _ => f

/-- The `ValidArgs` field of a command. -/
def Cmd.validArgs : Cmd → List String
  | .mk _ _ _ v _ => v

/-- The child commands (`cmd.Commands()`). -/
def Cmd.commands : Cmd → List Cmd
  | .mk _ _ _ _ cs => cs

/-- A completion candidate (`prompt.Suggest`): display text and
description. -/
structure Suggest where
  Text : String
  Description : String
deriving DecidableEq, Repr

/-- Go `strings.HasPrefix s pre` (byte-wise literal test). -/
def hasPrefix (s pre : String) : Bool := List.isPrefixOf pre.data s.data

/-! ### Scopes and the Environment scope stack -/

/-- Result of running a command body through `cmd.Execute()`.  `ok` is a
nil error; `err` is a non-nil error returned to `ExecutorFunc` (unknown
command, missing required flag, failing run body, upstream failure);
`exitProcess` models a body that calls `os.Exit` itself (the `quit`
command) so that `Execute` never returns. -/
inductive CmdResult where
  | ok
  | err (msg : String)
  | exitProcess

/-- A scope (`Scope` interface value): its command tree for completion
walks, and the dispatch of `GetCommand().SetArgs(args); Execute()`
abstracted as `run` (command bodies wrap network calls and terminal
rendering, which the shell itself never inspects). -/
structure ScopeV where
  rootCmd : Cmd
  run : List String → CmdResult

/-- The environment: a stack of scopes.  A stack entry of `none` models a
nil `Scope` interface value (the `scope == nil` test in `ExecutorFunc` is
only about such values). -/
structure Environment where
  ScopeStack : List (Option ScopeV)

/-- `Push` appends a scope to the stack unconditionally. -/
def Environment.Push (env : Environment) (scope : Option ScopeV) : Environment :=
  ⟨env.ScopeStack ++ [scope]⟩

/-- `Len` returns the number of scopes. -/
def Environment.Len (env : Environment) : Nat := env.ScopeStack.length

/-- `CurrentScope` returns `env.ScopeStack[env.Len()-1]`.  On an empty
stack the Go index expression is `-1` out of range, a runtime panic: that
is the outer `none`.  `some x` is a normal return of the top stack entry
`x` (itself an `Option` because a stack entry may be a nil interface). -/
def Environment.CurrentScope (env : Environment) : Option (Option ScopeV) :=
  env.ScopeStack.getLast?

/-- Result of `Pop`.  `exit` models `os.Exit(0)`: the process terminates
with status 0 and no updated environment exists.  `popped scope rest`
returns the removed top scope and the remaining environment. -/
inductive PopResult where
  | exit
  | popped (scope : Option ScopeV) (rest : Environment)

/-- `Pop`: with stack depth at most 1 the call is `os.Exit(0)`; otherwise
it removes and returns the top scope (`ScopeStack[:Len()-1]`). -/
def Environment.Pop (env : Environment) : PopResult :=
  if env.Len ≤ 1 then .exit
  else
    match env.CurrentScope with
    | some scope => .popped scope ⟨env.ScopeStack.dropLast⟩
    | none => .exit

/-- `NewEnvironment` builds an empty environment and pushes the root scope
onto it.  The root scope value is a parameter here: the source builds it
with `NewRootScope(env)`, whose command tree is static and whose dispatch
is cobra's (abstracted in `ScopeV.run`). -/
def NewEnvironment (rootScope : Option ScopeV) : Environment :=
  Environment.Push ⟨[]⟩ rootScope

/-! ### Executor -/

/-- Observable outcome of one `ExecutorFunc` call.

* `noop`: returned at the `input == ""` check — no output, no state change;
* `warned msg`: exactly one warning-level line `msg` is printed and
  `ExecutorFunc` returns, so the REPL reads the next line;
* `panicked`: the runtime index-out-of-range panic raised inside
  `CurrentScope` on an empty stack — the process crashes;
* `completed`: `cmd.Execute()` returned a nil error;
* `terminated`: the command body exited the process (`os.Exit`). -/
inductive ExecutorResult where
  | noop
  | warned (msg : String)
  | panicked
  | completed
  | terminated
deriving DecidableEq, Repr

/-- Outcome of dispatching parsed `args` into a scope's command tree:
`cmd := scope.GetCommand(); cmd.SetArgs(args); err := cmd.Execute()`, with
a non-nil `err` printed as a warning. -/
def runOutcome (scope : ScopeV) (args : List String) : ExecutorResult :=
  match scope.run args with
  | .ok => .completed
  | .err msg => .warned msg
  | .exitProcess => .terminated

/-- `ExecutorFunc` executes one input line: empty input returns
immediately; the line is tokenized by `shellquote.Split`, a tokenization
error is printed as a warning; the current scope is fetched (a panic on an
empty stack, a warning if the fetched interface value is nil); finally the
arguments are dispatched into the scope's command tree. -/
def Environment.ExecutorFunc (env : Environment) (input : String) : ExecutorResult :=
  if input = "" then .noop
  else
    match shellquoteSplit input with
    | .error e => .warned e.message
    | .ok args =>
      match env.CurrentScope with
      | none => .panicked
      | some none => .warned "current scope is nil"
      | some (some scope) => runOutcome scope args

/-! ### Completion walker -/

/-- Loop of `getSuggestions`: `acc` is the `rootCompletions` accumulator.
For each command in order: if `cmd.Use` is a literal prefix of the whole
`line`, return the recursion into that command's children followed by its
`--flag` candidates and — when the command declares valid args and the word
before the cursor is nonempty — its valid-arg candidates, discarding the
accumulator; otherwise add the command's name and short description to the
accumulator and continue.  If no command matched, the accumulator (all
sibling names at this level) is the result. -/
def getSuggestionsAux : String → List Cmd → String → List Suggest → List Suggest
  | _, [], _, acc => acc
  | line, Cmd.mk use short flags validArgs children :: rest, prevWord, acc =>
    if hasPrefix line use then
      getSuggestionsAux line children prevWord []
        ++ flags.map (fun f => Suggest.mk ("--" ++ f.name) f.usage)
        ++ (if 0 < validArgs.length ∧ 0 < prevWord.length then
              validArgs.map (fun a => Suggest.mk a "") else [])
    else
      getSuggestionsAux line rest prevWord (acc ++ [Suggest.mk use short])

/-- `getSuggestions(line, commands, prevWord)` with the accumulator started
empty, as in the source. -/
def getSuggestions (line : String) (commands : List Cmd) (prevWord : String) : List Suggest :=
  getSuggestionsAux line commands prevWord []

/-- Declarative description of what `getSuggestions` computes (the amended
form of the specified walk): at each level the walker looks for the FIRST
child whose name is a literal prefix of the ENTIRE line — the line is not
consumed while descending — and recurses into that child only, appending
the child's `--flag` candidates and, when it declares valid args and the
word before the cursor is nonempty, its valid-arg candidates; when no child
name is a prefix of the line the result is the menu of this level's
command names with their short descriptions. -/
def suggestAmended (line : String) (cmds : List Cmd) (prevWord : String) : List Suggest :=
  match h : cmds.find? (fun c => hasPrefix line c.use) with
  | some c =>
    suggestAmended line c.commands prevWord
      ++ c.flags.map (fun f => Suggest.mk ("--" ++ f.name) f.usage)
      ++ (if 0 < c.validArgs.length ∧ 0 < prevWord.length then
            c.validArgs.map (fun a => Suggest.mk a "") else [])
  | none => cmds.map (fun c => Suggest.mk c.use c.short)
termination_by sizeOf cmds
decreasing_by
  have hm : c ∈ cmds := List.mem_of_find?_eq_some h
  have h1 : sizeOf c < sizeOf cmds := List.sizeOf_lt_of_mem hm
  have h2 : sizeOf c.commands < sizeOf c := by
    cases c with
    | mk u s f v cs => simp [Cmd.commands]
  omega

/-- The command tree with every `ValidArgs` list removed, at every depth.
Used to state that valid-arg candidates are never offered: when erasing
them does not change the output, none of them was offered. -/
def eraseValidArgs : List Cmd → List Cmd
  | [] => []
  | Cmd.mk use short flags _ children :: rest =>
    Cmd.mk use short flags [] (eraseValidArgs children) :: eraseValidArgs rest

/-- The quoted claim's own walk, rendered literally from its words: the
remaining unmatched portion of the line (what follows the matched name,
with separating split characters dropped) is matched at each level, EVERY
child whose name is a prefix of that remaining portion is recursed into
(children first, then that child's flag candidates), and a level with no
matching child contributes the menu of its command names.  The boolean
records whether any child of the level matched. -/
def specWalk : String → List Cmd → String → Bool × List Suggest
  | _, [], _ => (false, [])
  | rem, Cmd.mk use _ flags _ children :: rest, prevWord =>
    let restRes := specWalk rem rest prevWord
    if hasPrefix rem use then
      let remaining := String.mk ((rem.data.drop use.data.length).dropWhile (· ∈ splitChars))
      let childRes := specWalk remaining children prevWord
      let childOut :=
        if childRes.1 then childRes.2
        else children.map (fun c => Suggest.mk c.use c.short)
      (true, (childOut ++ flags.map (fun f => Suggest.mk ("--" ++ f.name) f.usage)) ++ restRes.2)
    else restRes

/-- Suggestion generation as described by the claim (see `specWalk`). -/
def getSuggestionsSpec (line : String) (commands : List Cmd) (prevWord : String) : List Suggest :=
  let res := specWalk line commands prevWord
  if res.1 then res.2
  else commands.map (fun c => Suggest.mk c.use c.short)

/-! ### Stack operation sequences (for the stack-depth invariant) -/

/-- One stack operation issued by a command body (`use` pushes, `exit`
pops). -/
inductive StackOp where
  | push (scope : Option ScopeV)
  | pop

/-- Run a sequence of stack operations.  `none` means some `Pop` was
terminal (`os.Exit(0)`): the process is gone and no further state exists;
such a pop is not a "completed" pop. -/
def runOps : Environment → List StackOp → Option Environment
  | env, [] => some env
  | env, .push s :: rest => runOps (env.Push s) rest
  | env, .pop :: rest =>
    match env.Pop with
    | .exit => none
    | .popped _ env' => runOps env' rest

/-- Number of `push` operations in a sequence. -/
def countPushes : List StackOp → Nat
  | [] => 0
  | .push _ :: rest => countPushes rest + 1
  | .pop :: rest => countPushes rest

/-- Number of `pop` operations in a sequence. -/
def countPops : List StackOp → Nat
  | [] => 0
  | .push _ :: rest => countPops rest
  | .pop :: rest => countPops rest + 1

/-! ### Binance scope construction

Two snapshots of the constructor exist in the repository.  The
`package binance` one (console-based) reads four environment variables and
makes one exchange-info call; the `package main` one takes the API key pair
as arguments and makes the same call.  Both the environment variables and
the result of the blocking exchange-info network call are parameters of the
model. -/

/-- The response of the exchange-info upstream call that construction needs
(`resp.Symbols`, reduced to the symbol names: the only part the scope's
command tree surfaces through `ValidArgs`). -/
structure ExchangeInfo where
  symbols : List String
deriving DecidableEq, Repr

/-- The command tree the `package main` constructor installs.  Command
bodies (network wrappers) are abstracted; the tree shape — names, short
descriptions and the `ValidArgs` symbol lists that feed completion — is the
one the source builds. -/
def binanceCommandTree (info : ExchangeInfo) : Cmd :=
  Cmd.mk "binance" "Access exchange info" [] []
    [Cmd.mk "rate-limits" "API limits for the exchange" [] [] [],
     Cmd.mk "server-time" "Server time and timezone" [] [] [],
     Cmd.mk "symbol-price" "Get the current price for the given symbols" [] info.symbols [],
     Cmd.mk "asset-price" "Get the all current prices for an asset" [] [] [],
     Cmd.mk "compare" "Compare price from one asset to another through an intermediary market"
       [] info.symbols [],
     Cmd.mk "account-info" "Show user account info" [] [] [],
     Cmd.mk "account-balance" "Show user account balances" [] [] [],
     Cmd.mk "depth" "Show symbol depth" [] info.symbols [],
     Cmd.mk "shares" "Calculate shares if bought at a certain price" [] info.symbols [],
     Cmd.mk "risk" "Calculate risk if bought and sold at certain prices" [] [] [],
     Cmd.mk "convert" "Convert price from one asset to another through an intermediary market" [] [] [],
     Cmd.mk "exit" "Exits the current scope. Exits CLI if at top-level scope." [] [] [],
     Cmd.mk "quit" "Fully exits the Mercator CLI regardless of scope" [] [] []]

/-- The fully constructed `package main` binance scope value (dispatch
abstracted as always succeeding; no claim depends on its bodies). -/
def binanceScopeMain (info : ExchangeInfo) : ScopeV :=
  ⟨binanceCommandTree info, fun _ => CmdResult.ok⟩

namespace MainPkg

/-- `NewBinanceExchangeScope(env, apiKey, apiSecret)` from the
`package main` snapshot: an empty API key or secret is an error before
anything is built; then the exchange-info call is made, whose failure is
`"failed to list symbols"`; only with both steps successful is a scope
value constructed and returned. -/
def NewBinanceExchangeScope (apiKey apiSecret : String)
    (exchangeInfo : Except String ExchangeInfo) : Except String ScopeV :=
  if apiKey = "" ∨ apiSecret = "" then
    .error "Binance scope requires env variables: BINANCE_API_KEY and BINANCE_API_SECRET"
  else
    match exchangeInfo with
    | .error _ => .error "failed to list symbols"
    | .ok info => .ok (binanceScopeMain info)

end MainPkg

/-- The console-based `package binance` scope (command tree from the
console snapshot; bodies abstracted). -/
def binanceScopeConsole (info : ExchangeInfo) : ScopeV :=
  ⟨Cmd.mk "binance" "Access Binance exchange information" [] []
    [Cmd.mk "rate-limits" "API limits for the exchange" [] [] [],
     Cmd.mk "server-time" "Server time and timezone" [] [] [],
     Cmd.mk "symbol-price" "Get the current price for the given symbols" [] info.symbols [],
     Cmd.mk "asset-price" "Get the all current prices for an asset" [] [] [],
     Cmd.mk "compare" "Compare price from one asset to another through an intermediary market" [] [] [],
     Cmd.mk "account-info" "Show user account info" [] [] [],
     Cmd.mk "account-balance" "Show user account balances" [] [] [],
     Cmd.mk "account-trades" "Show user account trades"
       [GoFlag.mk "symbol" "Filter trades by this symbol",
        GoFlag.mk "limit" "Number of results to return"] [] [],
     Cmd.mk "depth" "Show symbol depth" [] [] [],
     Cmd.mk "shares" "Calculate shares if bought at a certain price"
       [GoFlag.mk "inv" "Investment amount", GoFlag.mk "price" "Buy price"] [] [],
     Cmd.mk "risk" "Calculate risk if bought and sold at certain prices"
       [GoFlag.mk "inv" "Investment amount", GoFlag.mk "entry" "Entry price",
        GoFlag.mk "stop" "Stop price", GoFlag.mk "ratio" "Risk/reward ratio"] [] [],
     Cmd.mk "current-value" "Get the current value of an asset for the given symbols"
       [GoFlag.mk "amount" "Amount of asset"] [] [],
     Cmd.mk "historical-market-trades" "List the historical market trades"
       [GoFlag.mk "symbol" "Filter trades by this symbol",
        GoFlag.mk "limit" "Number of results to return"] [] [],
     Cmd.mk "recent-market-trades" "List the recent market trades"
       [GoFlag.mk "symbol" "Filter trades by this symbol",
        GoFlag.mk "limit" "Number of results to return"] [] [],
     Cmd.mk "asset-detail" "Returns the asset details"
       [GoFlag.mk "asset" "Get the details for this asset"] [] [],
     Cmd.mk "symbol-detail" "Returns the symbol details"
       [GoFlag.mk "symbol" "Get the details for the symbol"] [] [],
     Cmd.mk "future-value" "Calculate value of shares if sold at a future price"
       [GoFlag.mk "amount" "Number of shares", GoFlag.mk "price" "Buy price"] [] []],
   fun _ => CmdResult.ok⟩

namespace BinancePkg

/-- `NewBinanceExchangeScope()` from the console snapshot
(`package binance`): it reads `BINANCE_API_KEY`/`BINANCE_API_SECRET` and
`PROXY_USER`/`PROXY_PASS` from the process environment (here parameters),
returning an error when either pair is incomplete; then the exchange-info
call is made, whose failure is logged and returned as
`"failed to list symbols"`.  Only after all three gates pass is
`console.NewScope` called and any command registered: no scope value exists
on any error path. -/
def NewBinanceExchangeScope (apiKey apiSecret proxyUsername proxyPassword : String)
    (exchangeInfo : Except String ExchangeInfo) : Except String ScopeV :=
  if apiKey = "" ∨ apiSecret = "" then
    .error "Binance scope requires env variables: BINANCE_API_KEY and BINANCE_API_SECRET"
  else if proxyPassword = "" ∨ proxyUsername = "" then
    .error "Binance scope requires env variables: PROXY_USER and PROXY_PASS"
  else
    match exchangeInfo with
    | .error _ => .error "failed to list symbols"
    | .ok info => .ok (binanceScopeConsole info)

end BinancePkg

/-- Run body of the `use binance` command (`binanceScopeCommand`): it calls
the `package main` constructor with the key pair read from the process
environment; on error it prints one error line and returns without touching
the environment; on success it pushes the new scope.  The returned pair is
the updated environment and the error line printed, if any. -/
def binanceScopeCommandRun (env : Environment) (apiKey apiSecret : String)
    (exchangeInfo : Except String ExchangeInfo) : Environment × Option String :=
  match MainPkg.NewBinanceExchangeScope apiKey apiSecret exchangeInfo with
  | .error _ =>
    (env, some "Binance scope requires env variables: BINANCE_API_KEY and BINANCE_API_SECRET")
  | .ok scope => (env.Push (some scope), none)

/-- Registration flow of `mercator.go` `main`: when the constructor fails,
the error is printed and `main` returns before `c.AddScope`; a scope is
registered with the console only on success. -/
def mainRegisterBinance (registeredScopes : List ScopeV)
    (ctorResult : Except String ScopeV) : List ScopeV :=
  match ctorResult with
  | .error _ => registeredScopes
  | .ok scope => registeredScopes ++ [scope]

/-! ### padLeft / padRight -/

/-- A Go string viewed as its byte sequence (`len`, `+` and `[0:n]` in
`padLeft`/`padRight` are byte operations). -/
abbrev GoStr := List Char

/-- The `for {}` loop of `padLeft`, with one unit of fuel per iteration:
each iteration prepends `pad` and returns the first `length` bytes as soon
as the string has grown strictly beyond `length` bytes.  `none` means the
given fuel was exhausted before the loop returned; the loop diverges
exactly when no fuel suffices. -/
def padLeft : GoStr → GoStr → Nat → Nat → Option GoStr
  | _, _, _, 0 => none
  | str, pad, length, fuel + 1 =>
    if length < List.length (pad ++ str) then some (List.take length (pad ++ str))
    else padLeft (pad ++ str) pad length fuel

/-- The `for {}` loop of `padRight`: as `padLeft`, with `pad` appended. -/
def padRight : GoStr → GoStr → Nat → Nat → Option GoStr
  | _, _, _, 0 => none
  | str, pad, length, fuel + 1 =>
    if length < List.length (str ++ pad) then some (List.take length (str ++ pad))
    else padRight (str ++ pad) pad length fuel

/-- `copies n pad` is `n` concatenated copies of `pad`. -/
def copies : Nat → GoStr → GoStr
  | 0, _ => []
  | n + 1, pad => pad ++ copies n pad

/-! ### Helper lemmas -/

/-- Appending on the right does not change the head of a nonempty list. -/
theorem head?_append_left {α : Type} (l l' : List α) (h : l ≠ []) :
    (l ++ l').head? = l.head? := by
  cases l with
  | nil => exact absurd rfl h
  | cons a t => rfl

/-- Dropping the last element of a list of length at least two does not
change its head. -/
theorem head?_dropLast {α : Type} (l : List α) (h : 2 ≤ l.length) :
    l.dropLast.head? = l.head? := by
  match l with
  | [] => simp at h
  | [a] => simp at h
  | a :: b :: t => rfl

/-- A nonempty string has positive length. -/
theorem string_length_pos {s : String} (h : s ≠ "") : 0 < s.length := by
  cases s with
  | mk l =>
    cases l with
    | nil => exact absurd (by decide) h
    | cons c t => simp [String.length]

/-- A `Pop` that returns `popped` was called on a stack of depth at least
two, and the remaining environment is the stack without its top. -/
theorem Pop_popped_elim (env : Environment) (s : Option ScopeV) (rest : Environment)
    (h : env.Pop = .popped s rest) :
    2 ≤ env.ScopeStack.length ∧ rest.ScopeStack = env.ScopeStack.dropLast := by
  unfold Environment.Pop at h
  split at h
  · exact absurd h (by simp)
  · next hlen =>
    split at h
    · next scope heq =>
      cases h
      have : ¬ env.ScopeStack.length ≤ 1 := by simpa [Environment.Len] using hlen
      exact ⟨by omega, rfl⟩
    · exact absurd h (by simp)

/-- Running a completed operation sequence: the final depth balances pushes
against pops, and a nonempty starting stack keeps its bottom element and
stays nonempty. -/
theorem runOps_invariant : ∀ (ops : List StackOp) (env env' : Environment),
    runOps env ops = some env' →
    env'.ScopeStack.length + countPops ops = env.ScopeStack.length + countPushes ops ∧
    (env.ScopeStack ≠ [] → env'.ScopeStack ≠ [] ∧
      env'.ScopeStack.head? = env.ScopeStack.head?) := by
  intro ops
  induction ops with
  | nil =>
    intro env env' h
    simp only [runOps, Option.some.injEq] at h
    subst h
    exact ⟨by simp [countPops, countPushes], fun hne => ⟨hne, rfl⟩⟩
  | cons op rest ih =>
    intro env env' h
    cases op with
    | push s =>
      rw [runOps] at h
      obtain ⟨hlen, hhead⟩ := ih (env.Push s) env' h
      have hplen : (env.Push s).ScopeStack.length = env.ScopeStack.length + 1 := by
        simp [Environment.Push]
      constructor
      · simp only [countPops, countPushes]
        omega
      · intro hne
        have hne2 : (env.Push s).ScopeStack ≠ [] := by simp [Environment.Push]
        obtain ⟨hne', hh⟩ := hhead hne2
        refine ⟨hne', ?_⟩
        rw [hh]
        exact head?_append_left _ _ hne
    | pop =>
      rw [runOps] at h
      cases hp : env.Pop with
      | exit => rw [hp] at h; exact absurd h (by simp)
      | popped sc env2 =>
        rw [hp] at h
        obtain ⟨hlen2, hrest⟩ := Pop_popped_elim env sc env2 hp
        obtain ⟨hlen, hhead⟩ := ih env2 env' h
        have hlen3 : env2.ScopeStack.length = env.ScopeStack.length - 1 := by
          rw [hrest]; simp
        constructor
        · simp only [countPops, countPushes]
          omega
        · intro _
          have hne2 : env2.ScopeStack ≠ [] := by
            have : 0 < env2.ScopeStack.length := by omega
            exact List.ne_nil_of_length_pos this
          obtain ⟨hne', hh⟩ := hhead hne2
          refine ⟨hne', ?_⟩
          rw [hh, hrest]
          exact head?_dropLast _ hlen2

/-- Running a concatenation of operation sequences runs them in order,
stopping if the first part exits. -/
theorem runOps_append : ∀ (l1 l2 : List StackOp) (env : Environment),
    runOps env (l1 ++ l2) = (runOps env l1).bind (fun e => runOps e l2) := by
  intro l1
  induction l1 with
  | nil => intro l2 env; simp [runOps]
  | cons op rest ih =>
    intro l2 env
    cases op with
    | push s =>
      rw [List.cons_append, runOps, runOps, ih]
    | pop =>
      rw [List.cons_append, runOps, runOps]
      cases env.Pop with
      | exit => rfl
      | popped sc env2 => exact ih l2 env2

/-! ### Claim theorems -/

/-- C1: for every environment whose scope stack has depth at most 1,
calling `Pop` is a terminal request — it is `os.Exit(0)` (the `exit`
result), so no error is returned, no mutated stack is produced, and the
root scope is never removed by popping. -/
theorem Pop_at_root_is_exit (env : Environment) (h : env.Len ≤ 1) :
    env.Pop = PopResult.exit := by
  unfold Environment.Pop
  rw [if_pos h]

theorem Pop_at_root_is_exit_witness :
    (Environment.mk [none]).Len ≤ 1 ∧ (Environment.mk [none]).Pop = PopResult.exit :=
  ⟨by decide, Pop_at_root_is_exit ⟨[none]⟩ (by decide)⟩

/-- C2: starting from the initial environment (exactly the root scope
pushed), any completed sequence of stack operations with N pushes and M
pops (M < N) leaves depth `1 + N - M`, the bottom frame is still the root
scope, and after every completed prefix of the sequence the stack is
nonempty with the same bottom frame — the stack length is at least 1 at
all times. -/
theorem stack_depth_after_ops (r : Option ScopeV) (ops : List StackOp) (env' : Environment)
    (h : runOps (NewEnvironment r) ops = some env')
    (hMN : countPops ops < countPushes ops) :
    env'.ScopeStack.length = 1 + countPushes ops - countPops ops ∧
    env'.ScopeStack.head? = some r ∧
    (∀ pre suf, ops = pre ++ suf →
      ∃ envp, runOps (NewEnvironment r) pre = some envp ∧
        1 ≤ envp.ScopeStack.length ∧ envp.ScopeStack.head? = some r) := by
  have hinit : (NewEnvironment r).ScopeStack = [r] := by
    simp [NewEnvironment, Environment.Push]
  obtain ⟨hlen, hhead⟩ := runOps_invariant ops _ env' h
  rw [hinit] at hlen hhead
  simp only [List.length_cons, List.length_nil] at hlen
  obtain ⟨hne', hh⟩ := hhead (by simp)
  refine ⟨by omega, by rw [hh]; rfl, ?_⟩
  intro pre suf heq
  subst heq
  rw [runOps_append] at h
  cases ho : runOps (NewEnvironment r) pre with
  | none => rw [ho] at h; exact absurd h (by simp)
  | some envp =>
    obtain ⟨hlenp, hheadp⟩ := runOps_invariant pre _ envp ho
    rw [hinit] at hheadp
    obtain ⟨hnep, hhp⟩ := hheadp (by simp)
    refine ⟨envp, rfl, List.length_pos.mpr hnep, by rw [hhp]; rfl⟩

theorem stack_depth_after_ops_witness :
    (Environment.mk [none, none]).ScopeStack.length =
      1 + countPushes [StackOp.push none, StackOp.push none, StackOp.pop]
        - countPops [StackOp.push none, StackOp.push none, StackOp.pop] ∧
    (Environment.mk [none, none]).ScopeStack.head? = some none := by
  have h := stack_depth_after_ops none [StackOp.push none, StackOp.push none, StackOp.pop]
    ⟨[none, none]⟩ rfl (by decide)
  exact ⟨h.1, h.2.1⟩

/-- C8 (divergence witness): with an empty scope stack — a state the
invariants forbid — dispatching the line `"help"` reaches the index
expression `env.ScopeStack[env.Len()-1]` inside `CurrentScope`, an
out-of-range access that panics and crashes the process; the `scope == nil`
defence below it is never reached, so no warning is emitted. -/
theorem executor_empty_stack_panics :
    Environment.ExecutorFunc ⟨[]⟩ "help" = ExecutorResult.panicked := by
  rfl

/-- Tokens made only of split characters produce no words: the top-level
loop of `Split` skips them all. -/
theorem splitGo_skip_all_splitChars : ∀ (l : List Char) (words : List String),
    (∀ c ∈ l, c ∈ splitChars) → splitGo .skip [] words l = .ok words := by
  intro l
  induction l with
  | nil => intro words _; rfl
  | cons c rest ih =>
    intro words hall
    rw [splitGo, if_pos (hall c (List.mem_cons_self c rest))]
    exact ih words (fun x hx => hall x (List.mem_cons_of_mem c hx))

/-- A scope whose dispatch reports an error on an empty argument vector:
it observes that a line reached dispatch. -/
def whitespaceProbeScope : ScopeV :=
  ⟨Cmd.mk "probe" "" [] [] [], fun _ => CmdResult.err "whitespace reached dispatch"⟩

/-- C3 (counterexample): the whitespace-only line `" "` is NOT a no-op: it
passes the `input == ""` check, tokenizes to an empty argument vector, and
is dispatched into the current scope's command tree — here producing a
warning, not silence. -/
theorem whitespace_input_not_noop :
    Environment.ExecutorFunc ⟨[some whitespaceProbeScope]⟩ " " =
      ExecutorResult.warned "whitespace reached dispatch" ∧
    ExecutorResult.warned "whitespace reached dispatch" ≠ ExecutorResult.noop := by
  exact ⟨rfl, by decide⟩

/-- C3 (amended): only the exactly-empty input line is a no-op (no output,
no error, no state change).  A nonempty line consisting only of split
characters (space, tab, newline) is not short-circuited: it tokenizes to
the empty argument vector and is dispatched into the current scope's
command tree, whose outcome is whatever `Execute` does with no
arguments. -/
theorem executor_noop_only_for_empty (env : Environment) (s : String) (sc : ScopeV) :
    env.ExecutorFunc "" = ExecutorResult.noop ∧
    (s ≠ "" → (∀ c ∈ s.data, c ∈ splitChars) → env.CurrentScope = some (some sc) →
      env.ExecutorFunc s = runOutcome sc []) := by
  constructor
  · simp [Environment.ExecutorFunc]
  · intro hne hws hcur
    have hsplit : shellquoteSplit s = .ok [] := by
      unfold shellquoteSplit
      exact splitGo_skip_all_splitChars s.data [] hws
    simp only [Environment.ExecutorFunc, if_neg hne, hsplit, hcur]

theorem executor_noop_only_for_empty_witness :
    Environment.ExecutorFunc ⟨[some whitespaceProbeScope]⟩ "" = ExecutorResult.noop ∧
    Environment.ExecutorFunc ⟨[some whitespaceProbeScope]⟩ " \t" =
      runOutcome whitespaceProbeScope [] := by
  have h := executor_noop_only_for_empty ⟨[some whitespaceProbeScope]⟩ " \t" whitespaceProbeScope
  exact ⟨h.1, h.2 (by decide) (by decide) rfl⟩

/-- A scope whose dispatch fails exactly on the argument vector
`["boom"]`, as cobra does for an unrecognized command token or a failing
run body. -/
def failingProbeScope : ScopeV :=
  ⟨Cmd.mk "probe" "" [] [] [],
   fun args => if args = ["boom"] then CmdResult.err "unknown command: boom" else CmdResult.ok⟩

/-- C4: every failing line — a tokenization failure (unbalanced quotes or
a dangling escape), or `cmd.Execute()` returning an error (unknown
command, missing required flag, failing run body) — results in exactly one
warning-level message (`warned`), the command is aborted, and
`ExecutorFunc` returns so the REPL reads the next line; no failure path
terminates the process. -/
theorem failing_line_single_warning (env : Environment) (input : String) (e : SplitError)
    (args : List String) (sc : ScopeV) (m : String) :
    (input ≠ "" → shellquoteSplit input = .error e →
      env.ExecutorFunc input = ExecutorResult.warned e.message) ∧
    (input ≠ "" → shellquoteSplit input = .ok args → env.CurrentScope = some (some sc) →
      sc.run args = CmdResult.err m → env.ExecutorFunc input = ExecutorResult.warned m) := by
  constructor
  · intro h1 h2
    simp only [Environment.ExecutorFunc, if_neg h1, h2]
  · intro h1 h2 h3 h4
    simp only [Environment.ExecutorFunc, if_neg h1, h2, h3, runOutcome, h4]

theorem failing_line_single_warning_witness :
    Environment.ExecutorFunc ⟨[some failingProbeScope]⟩ "\"" =
      ExecutorResult.warned (SplitError.message .unterminatedDouble) ∧
    Environment.ExecutorFunc ⟨[some failingProbeScope]⟩ "boom" =
      ExecutorResult.warned "unknown command: boom" :=
  ⟨(failing_line_single_warning ⟨[some failingProbeScope]⟩ "\"" .unterminatedDouble []
      failingProbeScope "x").1 (by decide) (by decide),
   (failing_line_single_warning ⟨[some failingProbeScope]⟩ "boom" .unterminatedDouble ["boom"]
      failingProbeScope "unknown command: boom").2 (by decide) (by decide) rfl rfl⟩

/-- C5: tokenization follows shell quoting rules, so a double-quoted
string containing spaces is one token: the line `foo "bar baz" qux` yields
exactly the tokens `foo`, `bar baz`, `qux`, and that token list is the
argument vector handed to the active scope's command tree. -/
theorem tokenize_shell_quoting (env : Environment) (sc : ScopeV) :
    shellquoteSplit "foo \"bar baz\" qux" = .ok ["foo", "bar baz", "qux"] ∧
    (env.CurrentScope = some (some sc) →
      env.ExecutorFunc "foo \"bar baz\" qux" = runOutcome sc ["foo", "bar baz", "qux"]) := by
  have hs : shellquoteSplit "foo \"bar baz\" qux" = .ok ["foo", "bar baz", "qux"] := by decide
  refine ⟨hs, fun hcur => ?_⟩
  simp only [Environment.ExecutorFunc, if_neg (by decide : ¬("foo \"bar baz\" qux" = "")),
    hs, hcur]

theorem tokenize_shell_quoting_witness :
    shellquoteSplit "foo \"bar baz\" qux" = .ok ["foo", "bar baz", "qux"] ∧
    Environment.ExecutorFunc ⟨[some failingProbeScope]⟩ "foo \"bar baz\" qux" =
      runOutcome failingProbeScope ["foo", "bar baz", "qux"] := by
  have h := tokenize_shell_quoting ⟨[some failingProbeScope]⟩ failingProbeScope
  exact ⟨h.1, h.2 rfl⟩

/-- The accumulator loop of `getSuggestions` computes the first-match
walk: either some command's name is a prefix of the whole line — then the
result is the recursion into the FIRST such command plus its flag and
valid-arg candidates, the accumulator being discarded — or none is, and
the result is the accumulator followed by all sibling menus. -/
theorem getSuggestionsAux_eq_amended (line : String) (cmds : List Cmd) (prevWord : String)
    (acc : List Suggest) :
    getSuggestionsAux line cmds prevWord acc =
      match cmds.find? (fun c => hasPrefix line c.use) with
      | some c =>
        suggestAmended line c.commands prevWord
          ++ c.flags.map (fun f => Suggest.mk ("--" ++ f.name) f.usage)
          ++ (if 0 < c.validArgs.length ∧ 0 < prevWord.length then
                c.validArgs.map (fun a => Suggest.mk a "") else [])
      | none => acc ++ cmds.map (fun c => Suggest.mk c.use c.short) := by
  induction line, cmds, prevWord, acc using getSuggestionsAux.induct with
  | case1 line prevWord acc =>
    simp [getSuggestionsAux, List.find?]
  | case2 line use short flags validArgs children rest prevWord acc hp ih =>
    rw [getSuggestionsAux]
    rw [if_pos hp]
    rw [List.find?_cons_of_pos _ (by simpa [Cmd.use] using hp)]
    rw [ih]
    simp only [Cmd.commands, Cmd.flags, Cmd.validArgs]
    rw [suggestAmended.eq_def]
    cases hc : children.find? (fun c => hasPrefix line c.use) with
    | some c' =>
      obtain ⟨u', s', f', v', cs'⟩ := c'
      simp [hc, Cmd.commands, Cmd.flags, Cmd.validArgs]
    | none => simp [hc]
  | case3 line use short flags validArgs children rest prevWord acc hp ih =>
    rw [getSuggestionsAux]
    rw [if_neg hp]
    rw [List.find?_cons_of_neg _ (by simpa [Cmd.use] using hp)]
    rw [ih]
    cases hc : rest.find? (fun c => hasPrefix line c.use) with
    | some c' => simp [hc]
    | none => simp [hc, Cmd.use, Cmd.short]

/-- C6 (amended): `getSuggestions` equals the declarative first-match walk
`suggestAmended`: at each level every child's name is matched as a literal
prefix of the ENTIRE line (the line is not consumed while descending);
the walker recurses into the FIRST matching child only, appending that
child's `--flag` candidates (and its valid-arg candidates when the word
before the cursor is nonempty); when no child matches, the result is the
menu of the current level's command names with their short
descriptions. -/
theorem getSuggestions_eq_amended (line : String) (cmds : List Cmd) (prevWord : String) :
    getSuggestions line cmds prevWord = suggestAmended line cmds prevWord := by
  rw [getSuggestions, getSuggestionsAux_eq_amended]
  rw [suggestAmended.eq_def]
  cases hc : cmds.find? (fun c => hasPrefix line c.use) with
  | some c' =>
    obtain ⟨u', s', f', v', cs'⟩ := c'
    simp [hc, Cmd.commands, Cmd.flags, Cmd.validArgs]
  | none => simp [hc]

/-- A two-level tree on which the source walk and the specified walk
disagree: two siblings whose names are both prefixes of the line, one of
them with a child that matches the remaining unmatched portion. -/
def cexTree : List Cmd :=
  [Cmd.mk "acc" "first" [GoFlag.mk "f1" "u1"] [] [],
   Cmd.mk "account" "second" [GoFlag.mk "f2" "u2"] []
     [Cmd.mk "info" "information" [GoFlag.mk "verbose" "verbose output"] [] []]]

/-- C6 (counterexample): on the line `account info` the source walker
returns only the flags of the first sibling `acc` (whose name is a prefix
of the whole line), never descending along the remaining unmatched portion
and never visiting the second matching sibling `account`; the walk the
claim describes returns the flags of all matching children, including the
grandchild `info` matched against the remaining portion.  The two walks
disagree. -/
theorem completer_walk_cex :
    getSuggestions "account info" cexTree "info" = [Suggest.mk "--f1" "u1"] ∧
    getSuggestionsSpec "account info" cexTree "info" =
      [Suggest.mk "--f1" "u1", Suggest.mk "--verbose" "verbose output",
       Suggest.mk "--f2" "u2"] ∧
    getSuggestions "account info" cexTree "info" ≠
      getSuggestionsSpec "account info" cexTree "info" := by
  refine ⟨?_, ?_, ?_⟩
  · simp +decide [getSuggestions, getSuggestionsAux, cexTree]
  · simp +decide [getSuggestionsSpec, specWalk, cexTree]
  · simp +decide [getSuggestions, getSuggestionsAux, getSuggestionsSpec, specWalk, cexTree]

/-- Valid-arg erasure changes nothing when the word before the cursor is
empty: the guard `len(cmd.ValidArgs) > 0 && len(prevWord) > 0` is false at
every node, so no valid-arg candidate is ever offered. -/
theorem getSuggestionsAux_erase (line : String) (cmds : List Cmd) (prevWord : String)
    (acc : List Suggest) :
    prevWord = "" →
      getSuggestionsAux line cmds prevWord acc =
        getSuggestionsAux line (eraseValidArgs cmds) prevWord acc := by
  induction line, cmds, prevWord, acc using getSuggestionsAux.induct with
  | case1 line prevWord acc => intro _; rw [eraseValidArgs]
  | case2 line use short flags validArgs children rest prevWord acc hp ih =>
    intro hpw
    subst hpw
    rw [getSuggestionsAux, if_pos hp, eraseValidArgs, getSuggestionsAux, if_pos hp]
    rw [ih rfl]
    simp [String.length]
  | case3 line use short flags validArgs children rest prevWord acc hp ih =>
    intro hpw
    subst hpw
    rw [getSuggestionsAux, if_neg hp, eraseValidArgs, getSuggestionsAux, if_neg hp]
    exact ih rfl

/-- C7: valid-arg candidates are gated on the user having started typing
an argument.  While the word before the cursor is empty, the suggestion
output is unchanged when every `ValidArgs` list in the tree is erased — no
valid-arg string is offered; and as soon as the matched command declares a
nonempty `ValidArgs` list and the word before the cursor is nonempty,
each declared valid argument is offered as a candidate. -/
theorem validargs_gated_by_prevword (line prevWord : String) (cmds rest : List Cmd)
    (c : Cmd) (a : String) :
    (prevWord = "" →
      getSuggestions line cmds prevWord = getSuggestions line (eraseValidArgs cmds) prevWord) ∧
    (hasPrefix line c.use = true → a ∈ c.validArgs → prevWord ≠ "" →
      Suggest.mk a "" ∈ getSuggestions line (c :: rest) prevWord) := by
  constructor
  · intro hpw
    rw [getSuggestions, getSuggestions]
    exact getSuggestionsAux_erase line cmds prevWord [] hpw
  · intro hp ha hpw
    obtain ⟨u, s, f, v, cs⟩ := c
    rw [getSuggestions, getSuggestionsAux, if_pos (by simpa [Cmd.use] using hp)]
    have hcond : 0 < v.length ∧ 0 < prevWord.length := by
      constructor
      · exact List.length_pos.mpr (List.ne_nil_of_mem (by simpa [Cmd.validArgs] using ha))
      · exact string_length_pos hpw
    rw [if_pos hcond]
    refine List.mem_append.mpr (Or.inr ?_)
    exact List.mem_map.mpr ⟨a, by simpa [Cmd.validArgs] using ha, rfl⟩

theorem validargs_gated_by_prevword_witness :
    getSuggestions "sym" cexTree "" = getSuggestions "sym" (eraseValidArgs cexTree) "" ∧
    Suggest.mk "BTCUSDT" "" ∈
      getSuggestions "symbol-price" [Cmd.mk "symbol-price" "prices" [] ["BTCUSDT"] []] "B" := by
  have h := validargs_gated_by_prevword "sym" "B" cexTree []
    (Cmd.mk "symbol-price" "prices" [] ["BTCUSDT"] []) "BTCUSDT"
  have h2 := validargs_gated_by_prevword "sym" "" cexTree []
    (Cmd.mk "symbol-price" "prices" [] ["BTCUSDT"] []) "BTCUSDT"
  refine ⟨h2.1 rfl, ?_⟩
  have := (validargs_gated_by_prevword "symbol-price" "B" cexTree []
    (Cmd.mk "symbol-price" "prices" [] ["BTCUSDT"] []) "BTCUSDT").2
    (by decide) (by decide) (by decide)
  exact this

/-- C9: a failing scope construction yields an error and no scope value,
and no partially-initialized scope is ever registered with the console or
pushed onto the environment's scope stack.  The first part covers the
console constructor (missing credential pairs or a failed exchange-info
call all return `error`); the second part is the `main` registration flow,
which adds nothing on a constructor error; the third part is the
`use binance` command body, which prints one error line and leaves the
environment untouched whenever its constructor fails. -/
theorem scope_construction_failure_guard (apiKey apiSecret proxyUsername proxyPassword : String)
    (info : Except String ExchangeInfo) (env : Environment) (regs : List ScopeV) (e : String) :
    ((apiKey = "" ∨ apiSecret = "" ∨ proxyUsername = "" ∨ proxyPassword = "" ∨
        (∃ er, info = .error er)) →
      ∃ msg, BinancePkg.NewBinanceExchangeScope apiKey apiSecret proxyUsername proxyPassword info
        = .error msg) ∧
    (mainRegisterBinance regs (.error e) = regs) ∧
    (MainPkg.NewBinanceExchangeScope apiKey apiSecret info = .error e →
      binanceScopeCommandRun env apiKey apiSecret info =
        (env, some "Binance scope requires env variables: BINANCE_API_KEY and BINANCE_API_SECRET")) := by
  refine ⟨?_, rfl, ?_⟩
  · intro hfail
    unfold BinancePkg.NewBinanceExchangeScope
    by_cases h1 : apiKey = "" ∨ apiSecret = ""
    · rw [if_pos h1]; exact ⟨_, rfl⟩
    · rw [if_neg h1]
      by_cases h2 : proxyPassword = "" ∨ proxyUsername = ""
      · rw [if_pos h2]; exact ⟨_, rfl⟩
      · rw [if_neg h2]
        cases hi : info with
        | error er => exact ⟨_, rfl⟩
        | ok i =>
          exfalso
          push_neg at h1 h2
          rcases hfail with h | h | h | h | ⟨er, h⟩
          · exact h1.1 h
          · exact h1.2 h
          · exact h2.2 h
          · exact h2.1 h
          · rw [hi] at h; exact Except.noConfusion h
  · intro h
    unfold binanceScopeCommandRun
    rw [h]

theorem scope_construction_failure_guard_witness :
    (∃ msg, BinancePkg.NewBinanceExchangeScope "" "sec" "user" "pass" (.ok ⟨[]⟩)
      = .error msg) ∧
    mainRegisterBinance [] (.error "x") = [] ∧
    binanceScopeCommandRun ⟨[]⟩ "" "sec" (.ok ⟨[]⟩) =
      (⟨[]⟩, some "Binance scope requires env variables: BINANCE_API_KEY and BINANCE_API_SECRET") := by
  have h := scope_construction_failure_guard "" "sec" "user" "pass" (.ok ⟨[]⟩) ⟨[]⟩ []
    "Binance scope requires env variables: BINANCE_API_KEY and BINANCE_API_SECRET"
  exact ⟨h.1 (Or.inl rfl), h.2.1, h.2.2 rfl⟩

/-- With an empty pad and a string no longer than the target length, the
loop body never changes the string and the return test never fires: every
fuel is exhausted — the Go loop never terminates. -/
theorem padLeft_empty_pad (str : GoStr) (length : Nat) (h : str.length ≤ length) :
    ∀ fuel, padLeft str [] length fuel = none := by
  intro fuel
  induction fuel with
  | zero => rfl
  | succ n ih =>
    rw [padLeft, if_neg (by simp; omega)]
    simpa using ih

/-- As `padLeft_empty_pad`, for `padRight`. -/
theorem padRight_empty_pad (str : GoStr) (length : Nat) (h : str.length ≤ length) :
    ∀ fuel, padRight str [] length fuel = none := by
  intro fuel
  induction fuel with
  | zero => rfl
  | succ n ih =>
    rw [padRight, if_neg (by simp; omega)]
    simpa using ih

/-- With a nonempty pad the string grows by `pad.length` per iteration, so
enough fuel makes the return test fire. -/
theorem padLeft_grows (pad : GoStr) (length : Nat) :
    ∀ (n : Nat) (str : GoStr), length < pad.length * n + str.length →
      ∃ r, padLeft str pad length (n + 1) = some r := by
  intro n
  induction n with
  | zero =>
    intro str h
    rw [padLeft, if_pos (by simp at h ⊢; omega)]
    exact ⟨_, rfl⟩
  | succ n ih =>
    intro str h
    by_cases hc : length < (pad ++ str).length
    · rw [padLeft, if_pos hc]
      exact ⟨_, rfl⟩
    · rw [padLeft, if_neg hc]
      apply ih (pad ++ str)
      rw [Nat.mul_succ] at h
      simp only [List.length_append]
      omega

/-- As `padLeft_grows`, for `padRight`. -/
theorem padRight_grows (pad : GoStr) (length : Nat) :
    ∀ (n : Nat) (str : GoStr), length < pad.length * n + str.length →
      ∃ r, padRight str pad length (n + 1) = some r := by
  intro n
  induction n with
  | zero =>
    intro str h
    rw [padRight, if_pos (by simp at h ⊢; omega)]
    exact ⟨_, rfl⟩
  | succ n ih =>
    intro str h
    by_cases hc : length < (str ++ pad).length
    · rw [padRight, if_pos hc]
      exact ⟨_, rfl⟩
    · rw [padRight, if_neg hc]
      apply ih (str ++ pad)
      rw [Nat.mul_succ] at h
      simp only [List.length_append]
      omega

/-- Copies of the pad commute with one more pad on either side. -/
theorem copies_succ_right (k : Nat) (pad : GoStr) :
    copies k pad ++ pad = pad ++ copies k pad := by
  induction k with
  | zero => simp [copies]
  | succ n ih =>
    rw [copies, List.append_assoc, ih]

/-- Any successful `padLeft` returns exactly the first `length` bytes of
some number of copies of the pad prepended to the string. -/
theorem padLeft_result (pad : GoStr) (length : Nat) :
    ∀ (fuel : Nat) (str r : GoStr), padLeft str pad length fuel = some r →
      (∃ k, r = List.take length (copies k pad ++ str)) ∧ r.length = length := by
  intro fuel
  induction fuel with
  | zero => intro str r h; exact absurd h (by simp [padLeft])
  | succ n ih =>
    intro str r h
    rw [padLeft] at h
    by_cases hc : length < (pad ++ str).length
    · rw [if_pos hc] at h
      cases h
      refine ⟨⟨1, by simp [copies]⟩, ?_⟩
      simp only [List.length_take]
      omega
    · rw [if_neg hc] at h
      obtain ⟨⟨k, hk⟩, hlen⟩ := ih (pad ++ str) r h
      refine ⟨⟨k + 1, ?_⟩, hlen⟩
      rw [hk, ← List.append_assoc, copies_succ_right, copies, List.append_assoc]

/-- As `padLeft_result`, for `padRight`: the first `length` bytes of the
string followed by some number of copies of the pad. -/
theorem padRight_result (pad : GoStr) (length : Nat) :
    ∀ (fuel : Nat) (str r : GoStr), padRight str pad length fuel = some r →
      (∃ k, r = List.take length (str ++ copies k pad)) ∧ r.length = length := by
  intro fuel
  induction fuel with
  | zero => intro str r h; exact absurd h (by simp [padRight])
  | succ n ih =>
    intro str r h
    rw [padRight] at h
    by_cases hc : length < (str ++ pad).length
    · rw [if_pos hc] at h
      cases h
      refine ⟨⟨1, by simp [copies]⟩, ?_⟩
      simp only [List.length_take]
      omega
    · rw [if_neg hc] at h
      obtain ⟨⟨k, hk⟩, hlen⟩ := ih (str ++ pad) r h
      refine ⟨⟨k + 1, ?_⟩, hlen⟩
      rw [hk, List.append_assoc, copies]

/-- C10: `padLeft str pad length` (and symmetrically `padRight`)
terminates — some fuel returns a value — if and only if the pad is
nonempty or the initial string is already longer than `length` bytes; with
an empty pad and a string of at most `length` bytes no fuel ever suffices
(the loop never terminates).  Whenever it terminates it returns exactly
the first `length` bytes of some number of copies of the pad prepended
(resp. appended) to the string — in particular a string of byte-length
exactly `length`. -/
theorem padding_termination_and_result (str pad : GoStr) (length : Nat) :
    ((∃ fuel r, padLeft str pad length fuel = some r) ↔ (pad ≠ [] ∨ length < str.length)) ∧
    (pad = [] → str.length ≤ length → ∀ fuel, padLeft str pad length fuel = none) ∧
    (∀ fuel r, padLeft str pad length fuel = some r →
      (∃ k, r = List.take length (copies k pad ++ str)) ∧ r.length = length) ∧
    ((∃ fuel r, padRight str pad length fuel = some r) ↔ (pad ≠ [] ∨ length < str.length)) ∧
    (pad = [] → str.length ≤ length → ∀ fuel, padRight str pad length fuel = none) ∧
    (∀ fuel r, padRight str pad length fuel = some r →
      (∃ k, r = List.take length (str ++ copies k pad)) ∧ r.length = length) := by
  refine ⟨⟨?_, ?_⟩, ?_, ?_, ⟨?_, ?_⟩, ?_, ?_⟩
  · rintro ⟨fuel, r, h⟩
    by_contra hno
    push_neg at hno
    rw [hno.1] at h
    rw [padLeft_empty_pad str length (by omega) fuel] at h
    exact Option.noConfusion h
  · rintro (hpad | hlen)
    · have hpos : 0 < pad.length := List.length_pos.mpr hpad
      have hbig : length < pad.length * (length + 1) + str.length := by
        have : 1 * (length + 1) ≤ pad.length * (length + 1) :=
          Nat.mul_le_mul_right _ hpos
        omega
      obtain ⟨r, hr⟩ := padLeft_grows pad length (length + 1) str hbig
      exact ⟨length + 2, r, hr⟩
    · refine ⟨1, List.take length (pad ++ str), ?_⟩
      rw [padLeft, if_pos (by simp; omega)]
  · intro hpad hlen fuel
    rw [hpad]
    exact padLeft_empty_pad str length hlen fuel
  · exact fun fuel r => padLeft_result pad length fuel str r
  · rintro ⟨fuel, r, h⟩
    by_contra hno
    push_neg at hno
    rw [hno.1] at h
    rw [padRight_empty_pad str length (by omega) fuel] at h
    exact Option.noConfusion h
  · rintro (hpad | hlen)
    · have hpos : 0 < pad.length := List.length_pos.mpr hpad
      have hbig : length < pad.length * (length + 1) + str.length := by
        have : 1 * (length + 1) ≤ pad.length * (length + 1) :=
          Nat.mul_le_mul_right _ hpos
        omega
      obtain ⟨r, hr⟩ := padRight_grows pad length (length + 1) str hbig
      exact ⟨length + 2, r, hr⟩
    · refine ⟨1, List.take length (str ++ pad), ?_⟩
      rw [padRight, if_pos (by simp; omega)]
  · intro hpad hlen fuel
    rw [hpad]
    exact padRight_empty_pad str length hlen fuel
  · exact fun fuel r => padRight_result pad length fuel str r

theorem padding_termination_and_result_witness :
    (∃ fuel r, padLeft ['a'] ['0'] 3 fuel = some r) ∧
    padLeft ['a'] ['0'] 3 3 = some ['0', '0', '0'] ∧
    (∃ k, ['0', '0', '0'] = List.take 3 (copies k ['0'] ++ ['a'])) ∧
    (∀ fuel, padLeft ['a'] [] 3 fuel = none) := by
  have h := padding_termination_and_result ['a'] ['0'] 3
  have h2 := padding_termination_and_result ['a'] [] 3
  refine ⟨h.1.mpr (Or.inl (by decide)), by decide, ?_, h2.2.1 rfl (by decide)⟩
  exact (h.2.2.1 3 ['0', '0', '0'] (by decide)).1

end Mercator
